import Mathlib

/-!
Verification of the negative-risk arbitrage engine of go-clob-client.

The engine lives in two example programs,
`examples/arbitrage_bot_sockets/arbitrage_bot_websockets.go` (the
"sockets" variant) and
`examples/arbitrage_bot_polling/arbitrage_bot_polling.go` (the "polling"
variant), on top of the client package `pkg/client`.

Shallow embedding conventions:
* Go `float64` prices, sizes and edges are modelled as `ℚ` (the bot only
  ever adds, subtracts and compares decimal prices, where exact rational
  arithmetic agrees with the intent of the code).
* `time.Duration` latency samples are modelled as `ℕ` (nanoseconds; every
  sample recorded by the bot is a nonnegative elapsed time).
* `sync.Map` is modelled as an association list in which a `Store`
  prepends and a `Load` takes the first matching entry, which realises
  exactly the per-key last-write-wins contract of the Go map.
* Network calls (REST order-book fetches, order creation/posting) are
  modelled by explicit oracle parameters describing their results.
* Concurrency is modelled, where a claim needs it, by explicit
  interleaving: a transition system over task program counters together
  with a schedule argument choosing which task steps next.
-/

/-- `MarketData` from both bot variants: the per-outcome best bid/ask
snapshot held by the market cache.  `lastUpdate` is an abstract timestamp. -/
structure MarketData where
  bestAsk : ℚ
  bestAskSize : ℚ
  bestBid : ℚ
  bestBidSize : ℚ
  lastUpdate : ℕ
deriving DecidableEq

/-- `MarketCache` (sockets variant, `data sync.Map`): association list
with newest write first. -/
abbrev MarketCache := List (String × MarketData)

/-- `NewMarketCache`: the empty cache. -/
def NewMarketCache : MarketCache := []

/-- `(mc *MarketCache) Update(tokenID, data)`: `sync.Map.Store`, i.e. the
new entry shadows every older entry for the same key. -/
def MarketCache.Update (mc : MarketCache) (tokenID : String) (d : MarketData) :
    MarketCache :=
  (tokenID, d) :: mc

/-- `(mc *MarketCache) Get(tokenID)`: `sync.Map.Load`; `none` models the
`found = false` return. -/
def MarketCache.Get : MarketCache → String → Option MarketData
  | [], _ => none
  | (k, v) :: rest, tokenID =>
      if k = tokenID then some v else MarketCache.Get rest tokenID

/-- A batch of cache writes (e.g. performed by concurrent feed handlers),
applied in the order the `sync.Map` linearises them. -/
def applyUpdates (mc : MarketCache) (ws : List (String × MarketData)) :
    MarketCache :=
  ws.foldl (fun c w => c.Update w.1 w.2) mc

/-- `PerformanceMetrics` (sockets variant): the two append-only latency
series, in insertion order, in nanoseconds. -/
structure PerformanceMetrics where
  captureToOrderLatencies : List ℕ
  orderExecutionTimes : List ℕ
deriving DecidableEq

/-- The four values returned by `PerformanceMetrics.GetStats`. -/
structure StatsOut where
  avgCaptureToOrder : ℕ
  avgOrderExecution : ℕ
  p99CaptureToOrder : ℕ
  p99OrderExecution : ℕ
deriving DecidableEq

/-- The mean computed by `GetStats` for one series: `total / len` with Go
integer (`time.Duration`) division, and `0` for an empty series. -/
def goMean (xs : List ℕ) : ℕ :=
  if xs.length > 0 then xs.sum / xs.length else 0

/-- The "P99" computed by `GetStats` for one series: only when
`len > 100`, the element of the UNSORTED series at index
`int(float64(len) * 0.99)`; otherwise the zero value.  The float index
expression is modelled exactly by `len * 99 / 100` (for the integer
magnitudes reachable here the float computation rounds to the same
integer). -/
def goP99 (xs : List ℕ) : ℕ :=
  if xs.length > 100 then xs.getD (xs.length * 99 / 100) 0 else 0

/-- `PerformanceMetrics.GetStats` from the sockets variant. -/
def PerformanceMetrics.GetStats (pm : PerformanceMetrics) : StatsOut :=
  { avgCaptureToOrder := goMean pm.captureToOrderLatencies
    avgOrderExecution := goMean pm.orderExecutionTimes
    p99CaptureToOrder := goP99 pm.captureToOrderLatencies
    p99OrderExecution := goP99 pm.orderExecutionTimes }

/-- Insertion into a sorted list, used to state what a real 99th
percentile of a series is (spec side, not code side). -/
def insertSorted (x : ℕ) : List ℕ → List ℕ
  | [] => [x]
  | y :: ys => if x ≤ y then x :: y :: ys else y :: insertSorted x ys

/-- Sorting a list of samples (spec side). -/
def sortSamples : List ℕ → List ℕ
  | [] => []
  | x :: xs => insertSorted x (sortSamples xs)

/-- Modelled from the spec's words "the latency aggregate (mean, p99)":
the nearest-rank 99th percentile of a series, i.e. the entry of the
sorted series at rank `⌈0.99·len⌉`.  This is the spec-side definition the
code's `goP99` is compared against. -/
def specP99 (xs : List ℕ) : ℕ :=
  (sortSamples xs).getD ((99 * xs.length + 99) / 100 - 1) 0

/-- `Stats` counters of the sockets variant that `placeMarketBuy`
touches. -/
structure OrderStats where
  ordersPlaced : ℕ
  ordersSucceeded : ℕ
  ordersFailed : ℕ
deriving DecidableEq

/-- `(bot *ArbBot) placeMarketBuy` (sockets variant), restricted to its
effect on the `Stats` counters.  `createOk` tells whether
`CreateMarketOrder` returned without error, `postOk` whether `PostOrder`
did; both are outcomes of external calls and so are oracle inputs. -/
def placeMarketBuy (createOk postOk : Bool) (s : OrderStats) : OrderStats :=
  let s1 := { s with ordersPlaced := s.ordersPlaced + 1 }
  if createOk = false then
    { s1 with ordersFailed := s1.ordersFailed + 1 }
  else if postOk = false then
    { s1 with ordersFailed := s1.ordersFailed + 1 }
  else
    { s1 with ordersSucceeded := s1.ordersSucceeded + 1 }

/-- A sequence of completed `placeMarketBuy` calls, each with its oracle
outcome. -/
def runPlaceMarketBuys (calls : List (Bool × Bool)) (s : OrderStats) :
    OrderStats :=
  calls.foldl (fun st c => placeMarketBuy c.1 c.2 st) s

/-- The loop body of the polling variant's `checkArbitrageForMarket`
(lines 995-1004): walk the group's outcomes accumulating
`(totalCost, liquidCount)`; an outcome is counted liquid when it has a
cache entry with `BestAsk > 0`. -/
def pollingScan (cache : MarketCache) (outcomes : List String) : ℚ × ℕ :=
  outcomes.foldl
    (fun acc t =>
      match cache.Get t with
      | some md => if md.bestAsk > 0 then (acc.1 + md.bestAsk, acc.2 + 1) else acc
      | none => acc)
    (0, 0)

/-- The list of liquid best asks of a group, in outcome order: the asks
the claims' formula `(k−1) − Σ asks` ranges over ("liquid" = positive
best ask, as in the polling variant and in the spec). -/
def liquidAsks (cache : MarketCache) (outcomes : List String) : List ℚ :=
  outcomes.filterMap
    (fun t =>
      match cache.Get t with
      | some md => if md.bestAsk > 0 then some md.bestAsk else none
      | none => none)

/-- The edge computed by the polling variant's `checkArbitrageForMarket`
(lines 1006-1014): `none` when fewer than 2 liquid outcomes, otherwise
`edge = guaranteedPayout − totalCost` with `guaranteedPayout = k − 1`. -/
def pollingEdge (cache : MarketCache) (outcomes : List String) : Option ℚ :=
  let acc := pollingScan cache outcomes
  if acc.2 < 2 then none else some ((acc.2 : ℚ) - 1 - acc.1)

/-- `ArbitrageOpportunity` of the polling variant, restricted to the
fields the claims are about. -/
structure ArbOpp where
  totalCost : ℚ
  guaranteedPayout : ℚ
  edge : ℚ
  numShares : ℕ
  wouldExecute : Bool
deriving DecidableEq

/-- The polling variant's `checkArbitrageForMarket` (lines 988-1053):
returns the opportunity it records, or `none` when the group has fewer
than 2 liquid outcomes or the edge does not clear `minEdge`.
`WouldExecute = edge > minEdge && totalCost <= MaxSpendUSDC`. -/
def checkArbitrageForMarket (cache : MarketCache) (outcomes : List String)
    (minEdge budget : ℚ) : Option ArbOpp :=
  let acc := pollingScan cache outcomes
  if acc.2 < 2 then none
  else
    let payout : ℚ := (acc.2 : ℚ) - 1
    let edge : ℚ := payout - acc.1
    if edge > minEdge then
      some
        { totalCost := acc.1
          guaranteedPayout := payout
          edge := edge
          numShares := acc.2
          wouldExecute := decide (edge > minEdge) && decide (acc.1 ≤ budget) }
    else none

/-- The ask-collection loop of the sockets variant's taker
`checkArbitrage` (lines 987-1000): an outcome joins `asks` when its
cache entry exists with `BestAsk ≠ 0` (note: the sockets variant tests
`BestAsk == 0`, not positivity). -/
def socketsCachedAsks (cache : MarketCache) (outcomes : List String) : List ℚ :=
  outcomes.filterMap
    (fun t =>
      match cache.Get t with
      | some md => if md.bestAsk = 0 then none else some md.bestAsk
      | none => none)

/-- The `emptyBooks` list of the sockets taker `checkArbitrage`: outcomes
with no cache entry or a zero best ask. -/
def socketsEmptyBooks (cache : MarketCache) (outcomes : List String) :
    List String :=
  outcomes.filter
    (fun t =>
      match cache.Get t with
      | some md => md.bestAsk = 0
      | none => true)

/-- The REST double-check of empty books (lines 1003-1019): for each
empty book, `GetOrderBook` is consulted (oracle `rest`, returning the
fetched best ask when the call succeeds with a nonempty ask side) and the
ask is appended when positive. -/
def socketsRestAsks (rest : String → Option ℚ) (empties : List String) :
    List ℚ :=
  empties.filterMap
    (fun t =>
      match rest t with
      | some p => if p > 0 then some p else none
      | none => none)

/-- The full ask list the sockets taker `checkArbitrage` evaluates:
cached liquid asks followed by the REST-recovered ones. -/
def socketsAsks (cache : MarketCache) (rest : String → Option ℚ)
    (outcomes : List String) : List ℚ :=
  socketsCachedAsks cache outcomes ++
    socketsRestAsks rest (socketsEmptyBooks cache outcomes)

/-- The edge reported by the sockets taker (lines 1029-1035):
`(k−1) − totalCost` over the collected asks, `none` when `len(asks) < 2`. -/
def socketsEdge (cache : MarketCache) (rest : String → Option ℚ)
    (outcomes : List String) : Option ℚ :=
  let asks := socketsAsks cache rest outcomes
  if asks.length < 2 then none
  else some ((asks.length : ℚ) - 1 - asks.sum)

/-- The trigger condition of the sockets taker `checkArbitrage`
(lines 1022-1030): at least two asks, `totalCost < (k−1) − MinEdge` and
`totalCost ≤ MaxSpendUSDC`.  There is no active-execution check in this
variant. -/
def socketsShouldExecute (cache : MarketCache) (rest : String → Option ℚ)
    (outcomes : List String) (minEdge budget : ℚ) : Bool :=
  let asks := socketsAsks cache rest outcomes
  decide (2 ≤ asks.length) &&
    decide (asks.sum < (asks.length : ℚ) - 1 - minEdge) &&
    decide (asks.sum ≤ budget)

/-- The budget-skip branch of the sockets taker `checkArbitrage`
(lines 1053-1056): the edge clears the threshold but the cost exceeds
the budget, so the cycle only logs. -/
def socketsBudgetSkip (cache : MarketCache) (rest : String → Option ℚ)
    (outcomes : List String) (minEdge budget : ℚ) : Bool :=
  let asks := socketsAsks cache rest outcomes
  decide (2 ≤ asks.length) &&
    decide (budget < asks.sum) &&
    decide (asks.sum < (asks.length : ℚ) - 1 - minEdge)

/-- The executions of a market group that are currently in flight in the
sockets variant.  `checkArbitrage` runs either synchronously off the
ticker or in a fresh goroutine off the signal channel
(`go checkArbitrage()`, line 1068), so several executions may be in
flight at once; the model counts them. -/
structure TakerExecState where
  inflight : ℕ
deriving DecidableEq

/-- One evaluation cycle of the sockets taker for a group: when the
trigger condition holds, an execution is launched (the leg orders are
submitted), otherwise nothing changes.  The launch is unconditional on
`inflight`: the sockets variant keeps no active-execution flag. -/
def socketsTakerCycle (cache : MarketCache) (rest : String → Option ℚ)
    (outcomes : List String) (minEdge budget : ℚ) (st : TakerExecState) :
    TakerExecState :=
  if socketsShouldExecute cache rest outcomes minEdge budget then
    { inflight := st.inflight + 1 }
  else st

/-- The polling variant's per-market trigger decision
(`checkAllMarketsForArbitrage`, lines 975-985, composed with the guard at
the top of `executeArbitrageParallel`, lines 1057-1066): an execution is
started iff an opportunity with `WouldExecute` was produced, the bot is
not in dry-run mode, and the group's `activeOrders` flag is not set. -/
def pollingTriggers (cache : MarketCache) (outcomes : List String)
    (minEdge budget : ℚ) (dryRun : Bool) (active : List String)
    (name : String) : Bool :=
  match checkArbitrageForMarket cache outcomes minEdge budget with
  | some opp => opp.wouldExecute && !dryRun && !(active.contains name)
  | none => false

/-- The set of market groups whose `activeOrders` flag is set in the
polling variant. -/
structure PollingExecState where
  active : List String
deriving DecidableEq

/-- One evaluation cycle of the polling variant for one market group:
when the trigger decision fires, `executeArbitrageParallel` passes its
guard and stores the group's active flag (line 1066); otherwise the state
is unchanged (in particular, an over-budget opportunity is only logged).
The returned `Bool` reports whether an execution was started. -/
def pollingCycle (cache : MarketCache) (outcomes : List String)
    (minEdge budget : ℚ) (dryRun : Bool) (name : String)
    (st : PollingExecState) : PollingExecState × Bool :=
  if pollingTriggers cache outcomes minEdge budget dryRun st.active name then
    ({ active := name :: st.active }, true)
  else (st, false)

/-- Program counter of one goroutine running the polling variant's
`executeArbitrageParallel` for a fixed market group:
`ready` = about to `Load` the group's `activeOrders` flag (line 1058);
`checked` = the `Load` observed the flag clear, about to `Store` it
(line 1066); `running` = flag stored, leg orders in flight;
`finished` = all legs done and the flag `Delete`d (line 1188);
`skipped` = the `Load` observed the flag set and the call returned. -/
inductive ExecPhase where
  | ready
  | checked
  | running
  | finished
  | skipped
deriving DecidableEq, BEq

/-- Shared state for concurrent `executeArbitrageParallel` calls on the
same market group: the group's `activeOrders` flag and the program
counter of each goroutine. -/
structure ExecModelState where
  flag : Bool
  tasks : List ExecPhase
deriving DecidableEq

/-- One interleaving step: goroutine `i` executes its next atomic
operation of `executeArbitrageParallel`.  `Load` and `Store` of the
`sync.Map` flag are separate atomic operations, exactly as in the Go
code (lines 1058 and 1066 are distinct calls with no lock around them). -/
def execStep (s : ExecModelState) (i : ℕ) : ExecModelState :=
  match s.tasks.get? i with
  | none => s
  | some ExecPhase.ready =>
      if s.flag then { s with tasks := s.tasks.set i ExecPhase.skipped }
      else { s with tasks := s.tasks.set i ExecPhase.checked }
  | some ExecPhase.checked =>
      { flag := true, tasks := s.tasks.set i ExecPhase.running }
  | some ExecPhase.running =>
      { flag := false, tasks := s.tasks.set i ExecPhase.finished }
  | some ExecPhase.finished => s
  | some ExecPhase.skipped => s

/-- Run a schedule (a list of goroutine indices) from a state. -/
def execRun (s : ExecModelState) (sched : List ℕ) : ExecModelState :=
  sched.foldl execStep s

/-- The number of executions currently in flight for the group. -/
def runningCount (s : ExecModelState) : ℕ :=
  (s.tasks.filter (fun p => p == ExecPhase.running)).length

/-- `Stats` counters of the polling variant that the result collector of
`executeArbitrageParallel` touches, plus the realised PnL. -/
structure PollStats where
  ordersFailed : ℕ
  totalPnL : ℚ
deriving DecidableEq

/-- State of the polling variant seen by the result collector: the
`activeOrders` flags and the stats. -/
structure CollectorState where
  active : List String
  stats : PollStats
deriving DecidableEq

/-- The result-collection goroutine of `executeArbitrageParallel`
(lines 1168-1198), given the per-leg success results: count failures,
always `Delete` the group's active flag, and add the opportunity's edge
to `totalPnL` only when every leg succeeded. -/
def collectResults (name : String) (edge : ℚ) (results : List Bool)
    (st : CollectorState) : CollectorState :=
  let successCount := (results.filter (fun b => b)).length
  let failedCount := (results.filter (fun b => !b)).length
  let st1 :=
    { st with stats := { st.stats with ordersFailed := st.stats.ordersFailed + failedCount } }
  let st2 := { st1 with active := st1.active.filter (fun n => n ≠ name) }
  if successCount = results.length then
    { st2 with stats := { st2.stats with totalPnL := st2.stats.totalPnL + edge } }
  else st2

/-- `utilities.PriceValid(price, tickSize)` from `pkg/utilities`: the
price must lie in `[tick, 1 − tick]` and sit on the tick grid (checked by
scaling with `10^tickDecimals`, rounding, and testing divisibility and
closeness of the rounding).  The Go function receives the tick as a
decimal string; it is modelled by its value `tick` together with its
number of decimal places `tickDecimals`. -/
def PriceValid (price tick : ℚ) (tickDecimals : ℕ) : Bool :=
  if price < tick ∨ price > 1 - tick then false
  else
    let scale : ℚ := (10 : ℚ) ^ tickDecimals
    let roundedPrice : ℤ := round (price * scale)
    let roundedTick : ℤ := round (tick * scale)
    if roundedTick = 0 then false
    else
      decide (roundedPrice % roundedTick = 0) &&
        decide (|price * scale - (roundedPrice : ℚ)| < 1 / 100)

/-- `ActiveBid` of the sockets variant: an open resting order. -/
structure ActiveBid where
  orderID : String
  price : ℚ
  size : ℚ
deriving DecidableEq

/-- The per-market resting-bid table `activeBids[marketName]`. -/
abbrev BidTable := List (String × ActiveBid)

/-- Go map read `activeBids[marketName][outcome]` (nil when absent). -/
def lookupBid : BidTable → String → Option ActiveBid
  | [], _ => none
  | (k, b) :: rest, outcome =>
      if k = outcome then some b else lookupBid rest outcome

/-- Go map delete. -/
def eraseBid (tbl : BidTable) (outcome : String) : BidTable :=
  tbl.filter (fun e => e.1 ≠ outcome)

/-- Go map write. -/
def setBid (tbl : BidTable) (outcome : String) (b : ActiveBid) : BidTable :=
  (outcome, b) :: eraseBid tbl outcome

/-- An order-management call issued to the exchange by the maker-taker
strategy: cancelling a resting order, or posting a new bid at a price. -/
inductive OrderCmd where
  | cancel (orderID : String)
  | place (price : ℚ)
deriving DecidableEq

/-- `(bot *ArbBot) updateBid(marketName, outcome, price)` (sockets
variant, lines 1170-1216).  `client.CreateOrder` validates the price with
`PriceValid` and fails on invalid prices (client_orders.go lines
897-902); `createOk` is the oracle for its other (network) failure modes
and `postRes` the oracle for `PostOrder`: `some oid` means the post
succeeded and the response carried that order ID, `none` that the post
errored or the response had no order ID (in either of those two cases the
table keeps its previous entry).  A `place` command is recorded exactly
when `PostOrder` is reached. -/
def updateBid (tick : ℚ) (tickDecimals : ℕ) (createOk : ℚ → Bool)
    (postRes : ℚ → Option String) (tbl : BidTable) (outcome : String)
    (price : ℚ) : BidTable × List OrderCmd :=
  match lookupBid tbl outcome with
  | some cur =>
      if cur.price = price then (tbl, [])
      else
        let cs := [OrderCmd.cancel cur.orderID]
        if PriceValid price tick tickDecimals && createOk price then
          match postRes price with
          | some oid =>
              (setBid tbl outcome { orderID := oid, price := price, size := 100 },
                cs ++ [OrderCmd.place price])
          | none => (tbl, cs ++ [OrderCmd.place price])
        else (tbl, cs)
  | none =>
      if PriceValid price tick tickDecimals && createOk price then
        match postRes price with
        | some oid =>
            (setBid tbl outcome { orderID := oid, price := price, size := 100 },
              [OrderCmd.place price])
        | none => (tbl, [OrderCmd.place price])
      else (tbl, [])

/-- `(bot *ArbBot) cancelBid(marketName, outcome)` (lines 1218-1229):
cancel the resting order, if any, and delete its table entry. -/
def cancelBid (tbl : BidTable) (outcome : String) : BidTable × List OrderCmd :=
  match lookupBid tbl outcome with
  | some b => (eraseBid tbl outcome, [OrderCmd.cancel b.orderID])
  | none => (tbl, [])

/-- The quote snapshot taken at the top of a maker-taker tick
(lines 1103-1118): `none` when any outcome lacks a cache entry or has a
zero best ask (`validData = false`, the cycle is skipped), otherwise the
`bestAsks` map in outcome order. -/
def snapshotAsks (cache : MarketCache) : List String → Option (List (String × ℚ))
  | [] => some []
  | t :: ts =>
      match cache.Get t with
      | none => none
      | some md =>
          if md.bestAsk = 0 then none
          else (snapshotAsks cache ts).map (fun l => (t, md.bestAsk) :: l)

/-- Go map read `bestAsks[outcomeK]` (0 when absent). -/
def lookupAsk : List (String × ℚ) → String → ℚ
  | [], _ => 0
  | (k, a) :: rest, outcome => if k = outcome then a else lookupAsk rest outcome

/-- The inner loop of a maker-taker tick (lines 1122-1127):
`sumOtherAsks` over all outcomes different from `j`. -/
def sumOtherAsks (askl : List (String × ℚ)) (outcomes : List String)
    (j : String) : ℚ :=
  outcomes.foldl (fun s k => if k ≠ j then s + lookupAsk askl k else s) 0

/-- The desired bid of outcome `j` (line 1129):
`(n − 1 − extraEdge) − sumOtherAsks` with `n` the group's outcome count. -/
def desiredBid (askl : List (String × ℚ)) (outcomes : List String)
    (extraEdge : ℚ) (j : String) : ℚ :=
  ((outcomes.length : ℚ) - 1 - extraEdge) - sumOtherAsks askl outcomes j

/-- The repricing decision for one outcome (lines 1129-1135): place or
replace a bid when the desired bid exceeds the minimum tick size `0.01`,
cancel any resting bid otherwise. -/
def repriceOutcome (tick : ℚ) (tickDecimals : ℕ) (createOk : ℚ → Bool)
    (postRes : ℚ → Option String) (askl : List (String × ℚ))
    (outcomes : List String) (extraEdge : ℚ)
    (acc : BidTable × List OrderCmd) (j : String) : BidTable × List OrderCmd :=
  let db := desiredBid askl outcomes extraEdge j
  if db > 1 / 100 then
    let r := updateBid tick tickDecimals createOk postRes acc.1 j db
    (r.1, acc.2 ++ r.2)
  else
    let r := cancelBid acc.1 j
    (r.1, acc.2 ++ r.2)

/-- The repricing pass of one maker-taker tick (`runMakerTakerArb`,
lines 1096-1136): skip the cycle when the snapshot is not fresh for every
outcome, otherwise reprice each outcome in order. -/
def makerTakerTick (tick : ℚ) (tickDecimals : ℕ) (createOk : ℚ → Bool)
    (postRes : ℚ → Option String) (cache : MarketCache)
    (outcomes : List String) (extraEdge : ℚ) (tbl : BidTable) :
    BidTable × List OrderCmd :=
  match snapshotAsks cache outcomes with
  | none => (tbl, [])
  | some askl =>
      outcomes.foldl
        (repriceOutcome tick tickDecimals createOk postRes askl outcomes extraEdge)
        (tbl, [])

/-- The `tokenToMarket` index of the sockets variant (precomputed at
startup): the group of outcomes that owns a token. -/
def tokenToMarket (groups : List (List String)) (assetID : String) :
    Option (List String) :=
  groups.find? (fun g => g.contains assetID)

/-- The inline pre-check of `OnOrderBookUpdate` (lines 713-737): the
update carries a positive ask, a budget is configured, the token belongs
to a group, and over the just-updated cache the group has at least two
liquid outcomes whose ask sum undercuts `(k−1) − 0.001` and fits the
budget. -/
def wsPrecheck (groups : List (List String)) (maxSpend : ℚ)
    (cache : MarketCache) (assetID : String) (askPrice : ℚ) : Bool :=
  decide (askPrice > 0) && decide (maxSpend > 0) &&
    (match tokenToMarket groups assetID with
     | some outcomes =>
         let acc := pollingScan cache outcomes
         decide (2 ≤ acc.2) && decide (acc.1 < (acc.2 : ℚ) - 1 - 1 / 1000) &&
           decide (acc.1 ≤ maxSpend)
     | none => false)

/-- The non-blocking send on the buffered `arbTrigger` channel
(lines 739-742, a `select` with a `default` branch): enqueue when the
queue is below capacity, drop the signal otherwise.  The function is
total: the feed-handling path never waits. -/
def pushSignal (cap : ℕ) (q : List String) (sig : String) : List String :=
  if q.length < cap then q ++ [sig] else q

/-- State shared between the feed adapter and the strategy layer in the
sockets variant: the market cache and the pending-signal queue. -/
structure FeedState where
  cache : MarketCache
  queue : List String
deriving DecidableEq

/-- `(h *WebSocketHandler) OnOrderBookUpdate` (lines 682-746), restricted
to its cache and signal-queue effects: write the freshly parsed quote to
the cache, then run the inline pre-check over the updated cache and, when
it passes, push the token's signal without blocking. -/
def OnOrderBookUpdate (groups : List (List String)) (maxSpend : ℚ)
    (cap : ℕ) (st : FeedState) (assetID : String) (upd : MarketData) :
    FeedState :=
  let cache2 := st.cache.Update assetID upd
  if wsPrecheck groups maxSpend cache2 assetID upd.bestAsk then
    { cache := cache2, queue := pushSignal cap st.queue assetID }
  else
    { cache := cache2, queue := st.queue }

/-- A concrete three-outcome market group used by witnesses: the spec's
end-to-end scenario with asks 0.30 / 0.33 / 0.34. -/
def exCache : MarketCache :=
  [("a", ⟨3/10, 5, 0, 0, 0⟩), ("b", ⟨33/100, 5, 0, 0, 0⟩), ("c", ⟨34/100, 5, 0, 0, 0⟩)]

/-- The outcome list of the concrete group. -/
def exOutcomes : List String := ["a", "b", "c"]

/-- A REST oracle whose order-book fetches all fail. -/
def noRest : String → Option ℚ := fun _ => none

/-- A concrete three-outcome cache for the maker-taker scenario of the
spec: asks 0.30 / 0.31 / 0.32. -/
def exCacheMT : MarketCache :=
  [("a", ⟨3/10, 5, 0, 0, 0⟩), ("b", ⟨31/100, 5, 0, 0, 0⟩), ("c", ⟨32/100, 5, 0, 0, 0⟩)]

/-- A fresh `Update` is what the next `Get` of the same key returns. -/
theorem MarketCache.Get_Update_self (mc : MarketCache) (k : String)
    (v : MarketData) : (mc.Update k v).Get k = some v := by
  simp [MarketCache.Update, MarketCache.Get]

/-- A batch of updates that never touches `k` leaves `Get k` unchanged. -/
theorem MarketCache.Get_applyUpdates_ne (ws : List (String × MarketData))
    (mc : MarketCache) (k : String) (h : ∀ w ∈ ws, w.1 ≠ k) :
    (applyUpdates mc ws).Get k = mc.Get k := by
  induction ws generalizing mc with
  | nil => rfl
  | cons w ws ih =>
      have h1 : w.1 ≠ k := h w (List.mem_cons_self w ws)
      have h2 : applyUpdates mc (w :: ws) = applyUpdates (mc.Update w.1 w.2) ws := rfl
      rw [h2, ih _ (fun x hx => h x (List.mem_cons_of_mem w hx))]
      simp [MarketCache.Update, MarketCache.Get, h1]

/-- C5: after `Update(key, quote)`, a `Get(key)` returns exactly the
just-written quote with `found = true`, however many cache writes to
other keys are interleaved in between; and `Get` on a key never updated
returns `found = false`. -/
theorem claim_C5 (mc : MarketCache) (k : String) (v : MarketData)
    (ws : List (String × MarketData)) (hws : ∀ w ∈ ws, w.1 ≠ k) :
    (applyUpdates (mc.Update k v) ws).Get k = some v ∧
      (applyUpdates NewMarketCache ws).Get k = none := by
  constructor
  · rw [MarketCache.Get_applyUpdates_ne ws _ k hws]
    exact MarketCache.Get_Update_self mc k v
  · rw [MarketCache.Get_applyUpdates_ne ws _ k hws]
    rfl

/-- Witness for C5 at a concrete cache, key, quote and a concurrent
write to another key. -/
theorem claim_C5_witness :
    (applyUpdates (MarketCache.Update NewMarketCache "a" ⟨1, 1, 1, 1, 0⟩)
        [("b", ⟨2, 2, 2, 2, 0⟩)]).Get "a" = some ⟨1, 1, 1, 1, 0⟩ ∧
      (applyUpdates NewMarketCache [("b", ⟨2, 2, 2, 2, 0⟩)]).Get "a" = none :=
  claim_C5 NewMarketCache "a" ⟨1, 1, 1, 1, 0⟩ [("b", ⟨2, 2, 2, 2, 0⟩)]
    (by intro w hw; simp only [List.mem_singleton] at hw; subst hw; decide)

/-- C10: every completed `placeMarketBuy` call increments `ordersPlaced`
by exactly one and exactly one of `ordersSucceeded` / `ordersFailed` by
exactly one (`ordersSucceeded` exactly when both the order creation and
the posting succeed), so after any sequence of completed calls
`ordersPlaced = ordersSucceeded + ordersFailed` holds whenever it held
initially. -/
theorem claim_C10 :
    (∀ (c p : Bool) (s : OrderStats),
        (placeMarketBuy c p s).ordersPlaced = s.ordersPlaced + 1 ∧
          (placeMarketBuy c p s).ordersSucceeded + (placeMarketBuy c p s).ordersFailed =
            s.ordersSucceeded + s.ordersFailed + 1 ∧
          ((placeMarketBuy c p s).ordersSucceeded = s.ordersSucceeded + 1 ↔
            c = true ∧ p = true) ∧
          ((placeMarketBuy c p s).ordersFailed = s.ordersFailed + 1 ↔
            c = false ∨ p = false)) ∧
      ∀ (calls : List (Bool × Bool)) (s : OrderStats),
        s.ordersPlaced = s.ordersSucceeded + s.ordersFailed →
          (runPlaceMarketBuys calls s).ordersPlaced =
            (runPlaceMarketBuys calls s).ordersSucceeded +
              (runPlaceMarketBuys calls s).ordersFailed := by
  constructor
  · intro c p s
    rcases c <;> rcases p <;> simp [placeMarketBuy] <;> omega
  · intro calls
    induction calls with
    | nil => intro s h; exact h
    | cons cp calls ih =>
        intro s h
        have h2 : runPlaceMarketBuys (cp :: calls) s =
            runPlaceMarketBuys calls (placeMarketBuy cp.1 cp.2 s) := rfl
        rw [h2]
        apply ih
        rcases cp with ⟨c, p⟩
        rcases c <;> rcases p <;> simp [placeMarketBuy] <;> omega

/-- Witness for C10: a concrete run with one success, one posting
failure and one creation failure keeps the counters balanced. -/
theorem claim_C10_witness :
    (runPlaceMarketBuys [(true, true), (true, false), (false, true)] ⟨0, 0, 0⟩).ordersPlaced =
      (runPlaceMarketBuys [(true, true), (true, false), (false, true)] ⟨0, 0, 0⟩).ordersSucceeded +
        (runPlaceMarketBuys [(true, true), (true, false), (false, true)] ⟨0, 0, 0⟩).ordersFailed :=
  claim_C10.2 [(true, true), (true, false), (false, true)] ⟨0, 0, 0⟩ rfl

/-- C1: two goroutines entering `executeArbitrageParallel` for the same
market group can interleave their `Load` and `Store` of the
`activeOrders` flag (the check and the set are separate `sync.Map`
operations with no lock around them) so that both pass the guard and
both reach the running phase: two executions of the group are in flight
at once, violating the at-most-one invariant. -/
theorem claim_C1_race :
    runningCount
        (execRun { flag := false, tasks := [ExecPhase.ready, ExecPhase.ready] }
          [0, 1, 0, 1]) = 2 := by
  decide

/-- Both branches of the result collector flow through the same flag
deletion and failure counting; only the PnL credit is conditional. -/
theorem length_filter_eq_iff_all (l : List Bool) :
    (l.filter (fun b => b)).length = l.length ↔ l.all (fun b => b) = true := by
  induction l with
  | nil => simp
  | cons b bs ih =>
      have hle := List.length_filter_le (fun b => b) bs
      cases b
      · simp only [List.filter_cons, List.all_cons, Bool.false_and, cond_false]
        norm_num
        omega
      · simp only [List.filter_cons, List.all_cons, Bool.true_and, cond_true]
        simp

/-- C4: once all legs of an execution have finished, the collector
always clears the group's active flag (so the very next qualifying cycle
can trigger again), counts one failure per failed leg, and credits the
opportunity's edge to the PnL exactly when every leg succeeded. -/
theorem claim_C4 (name : String) (edge : ℚ) (results : List Bool)
    (st : CollectorState) :
    (¬ name ∈ (collectResults name edge results st).active) ∧
      (collectResults name edge results st).stats.totalPnL =
        st.stats.totalPnL + (if results.all (fun b => b) then edge else 0) ∧
      (collectResults name edge results st).stats.ordersFailed =
        st.stats.ordersFailed + (results.filter (fun b => !b)).length ∧
      ∀ cache outcomes minEdge budget,
        pollingTriggers cache outcomes minEdge budget false
            ((collectResults name edge results st).active) name = true ↔
          ∃ opp, checkArbitrageForMarket cache outcomes minEdge budget = some opp ∧
            opp.wouldExecute = true := by
  have hmem : ¬ name ∈ (collectResults name edge results st).active := by
    simp only [collectResults]
    split <;> simp [List.mem_filter]
  refine ⟨hmem, ?_, ?_, ?_⟩
  · simp only [collectResults]
    rcases h : results.all (fun b => b) with _ | _
    · have hne : ¬ (results.filter (fun b => b)).length = results.length := by
        intro hc
        rw [(length_filter_eq_iff_all results).mp hc] at h
        cases h
      rw [if_neg hne]
      simp [h]
    · have heq : (results.filter (fun b => b)).length = results.length :=
        (length_filter_eq_iff_all results).mpr h
      rw [if_pos heq]
      simp [h]
  · simp only [collectResults]
    split <;> rfl
  · intro cache outcomes minEdge budget
    simp only [pollingTriggers]
    rcases h : checkArbitrageForMarket cache outcomes minEdge budget with _ | opp
    · simp
    · have hc : ((collectResults name edge results st).active).contains name = false := by
        simpa using hmem
      simp [hc]
      exact fun _ => hmem

/-- The accumulator form of the polling scan equals sum and count of the
liquid asks. -/
theorem pollingScan_go (cache : MarketCache) (l : List String) (a : ℚ) (n : ℕ) :
    l.foldl
        (fun acc t =>
          match cache.Get t with
          | some md => if md.bestAsk > 0 then (acc.1 + md.bestAsk, acc.2 + 1) else acc
          | none => acc)
        (a, n) =
      (a + (liquidAsks cache l).sum, n + (liquidAsks cache l).length) := by
  induction l generalizing a n with
  | nil => simp [liquidAsks]
  | cons t ts ih =>
      simp only [List.foldl_cons]
      rcases h : cache.Get t with _ | md
      · simp only [h]
        rw [ih]
        simp [liquidAsks, List.filterMap_cons, h]
      · by_cases hpos : md.bestAsk > 0
        · simp only [h, hpos, if_true]
          rw [ih]
          simp only [liquidAsks, List.filterMap_cons, h, hpos, if_true,
            List.sum_cons, List.length_cons]
          refine congrArg₂ Prod.mk (by ring) (by omega)
        · simp only [h, hpos, if_false]
          rw [ih]
          simp [liquidAsks, List.filterMap_cons, h, hpos]

/-- `pollingScan` returns exactly the sum and the count of the liquid
asks. -/
theorem pollingScan_eq (cache : MarketCache) (outcomes : List String) :
    pollingScan cache outcomes =
      ((liquidAsks cache outcomes).sum, (liquidAsks cache outcomes).length) := by
  have h := pollingScan_go cache outcomes 0 0
  simpa [pollingScan] using h

/-- With nonnegative cached asks, the sockets `BestAsk ≠ 0` liquidity
test selects exactly the positive asks. -/
theorem socketsCachedAsks_eq (cache : MarketCache) (outcomes : List String)
    (h1 : ∀ t md, cache.Get t = some md → 0 ≤ md.bestAsk) :
    socketsCachedAsks cache outcomes = liquidAsks cache outcomes := by
  induction outcomes with
  | nil => rfl
  | cons t ts ih =>
      simp only [socketsCachedAsks, liquidAsks, List.filterMap_cons] at ih ⊢
      rcases h : cache.Get t with _ | md
      · simp only [h]
        exact ih
      · have hge := h1 t md h
        by_cases hz : md.bestAsk = 0
        · have hnpos : ¬ md.bestAsk > 0 := by rw [hz]; norm_num
          simp only [h, hz, if_true, hnpos, if_false]
          exact ih
        · have hpos : md.bestAsk > 0 := lt_of_le_of_ne hge (Ne.symm hz)
          simp only [h, hz, if_false, hpos, if_true]
          rw [ih]

/-- When the REST double-check recovers no positive ask for any empty
book, it contributes nothing. -/
theorem socketsRestAsks_eq_nil (rest : String → Option ℚ)
    (empties : List String)
    (h2 : ∀ t ∈ empties, ∀ p, rest t = some p → ¬ p > 0) :
    socketsRestAsks rest empties = [] := by
  induction empties with
  | nil => rfl
  | cons t ts ih =>
      simp only [socketsRestAsks, List.filterMap_cons] at ih ⊢
      rcases h : rest t with _ | p
      · simp only [h]
        exact ih fun x hx => h2 x (List.mem_cons_of_mem t hx)
      · have hnp := h2 t (List.mem_cons_self t ts) p h
        simp only [h, hnp, if_false]
        exact ih fun x hx => h2 x (List.mem_cons_of_mem t hx)

/-- C3: whenever the cached quotes of a group have k ≥ 2 liquid outcomes
(positive best ask), both variants' evaluations compute the edge as
exactly `(k − 1) − Σ asks` over those liquid asks — for every k and for
arbitrary fractional prices.  The hypotheses say that cached asks are
never negative (they are parsed exchange prices) and that the sockets
variant's REST double-check of the remaining empty books recovers no
positive ask (the pure-cache reading of the claim). -/
theorem claim_C3 (cache : MarketCache) (rest : String → Option ℚ)
    (outcomes : List String)
    (h1 : ∀ t md, cache.Get t = some md → 0 ≤ md.bestAsk)
    (h2 : ∀ t ∈ socketsEmptyBooks cache outcomes, ∀ p, rest t = some p → ¬ p > 0)
    (hk : 2 ≤ (liquidAsks cache outcomes).length) :
    pollingEdge cache outcomes =
        some (((liquidAsks cache outcomes).length : ℚ) - 1 -
          (liquidAsks cache outcomes).sum) ∧
      socketsEdge cache rest outcomes =
        some (((liquidAsks cache outcomes).length : ℚ) - 1 -
          (liquidAsks cache outcomes).sum) := by
  have hs : socketsAsks cache rest outcomes = liquidAsks cache outcomes := by
    unfold socketsAsks
    rw [socketsCachedAsks_eq cache outcomes h1,
      socketsRestAsks_eq_nil rest _ h2, List.append_nil]
  constructor
  · unfold pollingEdge
    rw [pollingScan_eq]
    exact if_neg (by omega)
  · unfold socketsEdge
    rw [hs]
    exact if_neg (by omega)

/-- Witness for C3 at the spec's 0.30/0.33/0.34 scenario (k = 3,
edge = 1.03). -/
theorem claim_C3_witness :
    pollingEdge exCache exOutcomes =
        some (((liquidAsks exCache exOutcomes).length : ℚ) - 1 -
          (liquidAsks exCache exOutcomes).sum) ∧
      socketsEdge exCache noRest exOutcomes =
        some (((liquidAsks exCache exOutcomes).length : ℚ) - 1 -
          (liquidAsks exCache exOutcomes).sum) :=
  claim_C3 exCache noRest exOutcomes
    (by
      intro t md h
      simp only [exCache, MarketCache.Get] at h
      split_ifs at h
      all_goals try cases h
      all_goals norm_num)
    (by intro t ht p hp; simp [noRest] at hp)
    (by norm_num +decide [liquidAsks, exCache, exOutcomes, MarketCache.Get,
      List.filterMap_cons])

/-- C2 (amended): in the polling variant an execution is started iff the
group has at least two liquid outcomes, `edge > minEdge`,
`cost ≤ budget`, the bot is not in dry-run mode and the group's active
flag is not set, and a cycle that does not start an execution (in
particular an over-budget one) changes no state; in the sockets variant
an execution is started iff `k ≥ 2`, `cost < (k−1) − minEdge` and
`cost ≤ budget`, with NO active-execution condition, and the over-budget
branch only logs. -/
theorem claim_C2 (cache : MarketCache) (rest : String → Option ℚ)
    (outcomes : List String) (minEdge budget : ℚ) (dryRun : Bool)
    (name : String) (pst : PollingExecState) (tst : TakerExecState) :
    ((pollingCycle cache outcomes minEdge budget dryRun name pst).2 = true ↔
      2 ≤ (liquidAsks cache outcomes).length ∧
        ((liquidAsks cache outcomes).length : ℚ) - 1 -
            (liquidAsks cache outcomes).sum > minEdge ∧
        (liquidAsks cache outcomes).sum ≤ budget ∧
        dryRun = false ∧ ¬ name ∈ pst.active) ∧
      ((pollingCycle cache outcomes minEdge budget dryRun name pst).2 = false →
        (pollingCycle cache outcomes minEdge budget dryRun name pst).1 = pst) ∧
      (budget < (liquidAsks cache outcomes).sum →
        (pollingCycle cache outcomes minEdge budget dryRun name pst).2 = false ∧
          (pollingCycle cache outcomes minEdge budget dryRun name pst).1 = pst) ∧
      ((socketsTakerCycle cache rest outcomes minEdge budget tst).inflight =
          tst.inflight + 1 ↔
        2 ≤ (socketsAsks cache rest outcomes).length ∧
          (socketsAsks cache rest outcomes).sum <
            ((socketsAsks cache rest outcomes).length : ℚ) - 1 - minEdge ∧
          (socketsAsks cache rest outcomes).sum ≤ budget) ∧
      (socketsBudgetSkip cache rest outcomes minEdge budget = true →
        socketsTakerCycle cache rest outcomes minEdge budget tst = tst) := by
  have hpoll :
      (pollingCycle cache outcomes minEdge budget dryRun name pst).2 = true ↔
        2 ≤ (liquidAsks cache outcomes).length ∧
          ((liquidAsks cache outcomes).length : ℚ) - 1 -
              (liquidAsks cache outcomes).sum > minEdge ∧
          (liquidAsks cache outcomes).sum ≤ budget ∧
          dryRun = false ∧ ¬ name ∈ pst.active := by
    unfold pollingCycle pollingTriggers checkArbitrageForMarket
    rw [pollingScan_eq]
    by_cases hk : (liquidAsks cache outcomes).length < 2
    · simp only [if_pos hk]
      refine iff_of_false (by simp) ?_
      intro hcon
      omega
    · simp only [if_neg hk]
      by_cases he :
          ((liquidAsks cache outcomes).length : ℚ) - 1 -
            (liquidAsks cache outcomes).sum > minEdge
      · simp only [if_pos he]
        split_ifs with ht
        · refine iff_of_true rfl ?_
          simp only [Bool.and_eq_true, decide_eq_true_eq, Bool.not_eq_true'] at ht
          obtain ⟨⟨⟨h1, h2⟩, h3⟩, h4⟩ := ht
          refine ⟨by omega, h1, h2, h3, ?_⟩
          simpa using h4
        · refine iff_of_false (by simp) ?_
          intro hcon
          apply ht
          simp only [Bool.and_eq_true, decide_eq_true_eq, Bool.not_eq_true']
          exact ⟨⟨⟨hcon.2.1, hcon.2.2.1⟩, hcon.2.2.2.1⟩, by simpa using hcon.2.2.2.2⟩
      · simp only [if_neg he]
        refine iff_of_false (by simp) ?_
        intro hcon
        exact he hcon.2.1
  refine ⟨hpoll, ?_, ?_, ?_, ?_⟩
  · intro hf
    unfold pollingCycle at hf ⊢
    by_cases ht : pollingTriggers cache outcomes minEdge budget dryRun pst.active name = true
    · rw [if_pos ht] at hf
      cases hf
    · rw [if_neg ht]
  · intro hover
    have hf : (pollingCycle cache outcomes minEdge budget dryRun name pst).2 = false := by
      rcases hb : (pollingCycle cache outcomes minEdge budget dryRun name pst).2 with _ | _
      · rfl
      · exfalso
        have hx := hpoll.mp hb
        exact absurd hx.2.2.1 (not_le.mpr hover)
    refine ⟨hf, ?_⟩
    unfold pollingCycle at hf ⊢
    by_cases ht : pollingTriggers cache outcomes minEdge budget dryRun pst.active name = true
    · rw [if_pos ht] at hf
      cases hf
    · rw [if_neg ht]
  · unfold socketsTakerCycle socketsShouldExecute
    split_ifs with hb
    · simp only [Bool.and_eq_true, decide_eq_true_eq] at hb
      exact iff_of_true rfl ⟨hb.1.1, hb.1.2, hb.2⟩
    · simp only [Bool.and_eq_true, decide_eq_true_eq, not_and] at hb
      refine iff_of_false (by omega) ?_
      intro hcon
      exact hb ⟨hcon.1, hcon.2.1⟩ hcon.2.2
  · intro hb
    unfold socketsBudgetSkip at hb
    simp only [Bool.and_eq_true, decide_eq_true_eq] at hb
    unfold socketsTakerCycle socketsShouldExecute
    have hnb : ¬ (socketsAsks cache rest outcomes).sum ≤ budget := not_le.mpr hb.1.2
    rw [if_neg (by
      simp only [Bool.and_eq_true, decide_eq_true_eq]
      intro hcon
      exact hnb hcon.2)]

/-- Counterexample for C2 as stated: in the sockets variant the taker
cycle starts an execution although one is already in flight — the
"no execution currently active" conjunct of the claim is not checked by
this variant (the signal path spawns `go checkArbitrage()`). -/
theorem claim_C2_counterexample :
    socketsShouldExecute exCache noRest exOutcomes (1/100) 1 = true ∧
      (socketsTakerCycle exCache noRest exOutcomes (1/100) 1 ⟨1⟩).inflight = 2 ∧
      (1 : ℕ) ≠ 0 := by
  have hb : socketsShouldExecute exCache noRest exOutcomes (1/100) 1 = true := by
    norm_num +decide [socketsShouldExecute, socketsAsks, socketsCachedAsks,
      socketsEmptyBooks, socketsRestAsks, exCache, exOutcomes, noRest,
      MarketCache.Get, List.filterMap_cons, List.filter_cons]
  refine ⟨hb, ?_, by decide⟩
  unfold socketsTakerCycle
  rw [if_pos hb]

/-- Witness for C2: at the spec's 0.30/0.33/0.34 scenario with
`minEdge = 0.01` and budget 1, the polling cycle with a clear flag and
dry-run off does start an execution. -/
theorem claim_C2_witness :
    (pollingCycle exCache exOutcomes (1/100) 1 false "g" ⟨[]⟩).2 = true :=
  (claim_C2 exCache noRest exOutcomes (1/100) 1 false "g" ⟨[]⟩ ⟨0⟩).1.mpr
    ⟨by norm_num +decide [liquidAsks, exCache, exOutcomes, MarketCache.Get,
        List.filterMap_cons],
      by norm_num +decide [liquidAsks, exCache, exOutcomes, MarketCache.Get,
        List.filterMap_cons],
      by norm_num +decide [liquidAsks, exCache, exOutcomes, MarketCache.Get,
        List.filterMap_cons],
      rfl, by simp⟩

/-- C8: for a feed update that passes the inline pre-check, the signal
push is the non-blocking `select`/`default` send: with free capacity the
signal is appended, with a full queue the queue is left exactly
unchanged, and in either case the handler returns (the bound
`max |queue| cap` always holds). -/
theorem claim_C8 (groups : List (List String)) (maxSpend : ℚ) (cap : ℕ)
    (st : FeedState) (assetID : String) (upd : MarketData)
    (hpre : wsPrecheck groups maxSpend (st.cache.Update assetID upd) assetID
        upd.bestAsk = true) :
    (OnOrderBookUpdate groups maxSpend cap st assetID upd).cache =
        st.cache.Update assetID upd ∧
      (st.queue.length < cap →
        (OnOrderBookUpdate groups maxSpend cap st assetID upd).queue =
          st.queue ++ [assetID]) ∧
      (cap ≤ st.queue.length →
        (OnOrderBookUpdate groups maxSpend cap st assetID upd).queue = st.queue) ∧
      (OnOrderBookUpdate groups maxSpend cap st assetID upd).queue.length ≤
        max st.queue.length cap := by
  unfold OnOrderBookUpdate
  rw [if_pos hpre]
  refine ⟨rfl, ?_, ?_, ?_⟩
  · intro h
    show pushSignal cap st.queue assetID = st.queue ++ [assetID]
    unfold pushSignal
    rw [if_pos h]
  · intro h
    show pushSignal cap st.queue assetID = st.queue
    unfold pushSignal
    rw [if_neg (not_lt.mpr h)]
  · show (pushSignal cap st.queue assetID).length ≤ max st.queue.length cap
    unfold pushSignal
    split_ifs with h
    · simp only [List.length_append, List.length_singleton]
      omega
    · omega

/-- Witness for C8: a concrete passing update is enqueued on a queue
with free capacity. -/
theorem claim_C8_witness :
    (OnOrderBookUpdate [["a", "b"]] 1 4 ⟨[("b", ⟨2/5, 1, 0, 0, 0⟩)], []⟩ "a"
        ⟨2/5, 1, 0, 0, 0⟩).queue = ["a"] :=
  (claim_C8 [["a", "b"]] 1 4 ⟨[("b", ⟨2/5, 1, 0, 0, 0⟩)], []⟩ "a"
      ⟨2/5, 1, 0, 0, 0⟩
      (by
        norm_num +decide [wsPrecheck, tokenToMarket, pollingScan,
          MarketCache.Get, MarketCache.Update, List.find?])).2.1
    (by decide)

/-- Counterexample for C9 as stated: for the non-empty one-sample series
`[5]` (and `[7]`), `GetStats` returns p99 = 0, not the 99th percentile
of the recorded samples (the code computes a p99 only when a series has
more than 100 samples). -/
theorem claim_C9_counterexample :
    ¬ ((PerformanceMetrics.GetStats ⟨[5], [7]⟩).p99CaptureToOrder = specP99 [5] ∧
        (PerformanceMetrics.GetStats ⟨[5], [7]⟩).p99OrderExecution = specP99 [7]) := by
  decide

/-- The raw-index p99 of a long series is an element of the series. -/
theorem goP99_long (xs : List ℕ) (h : 100 < xs.length) :
    goP99 xs = xs.getD (xs.length * 99 / 100) 0 ∧ goP99 xs ∈ xs := by
  have hidx : xs.length * 99 / 100 < xs.length := by
    rw [Nat.div_lt_iff_lt_mul (by norm_num : 0 < 100)]
    omega
  have hval : goP99 xs = xs.getD (xs.length * 99 / 100) 0 := by
    unfold goP99
    rw [if_pos h]
  refine ⟨hval, ?_⟩
  rw [hval, List.getD_eq_getElem xs 0 hidx]
  exact List.getElem_mem hidx

/-- C9 (amended): for non-empty series `GetStats` returns the truncated
integer mean `sum / len`; the "p99" is `0` whenever a series has at most
100 samples, and for longer series it is the element of the UNSORTED
series at index `⌊0.99·len⌋` (an element of the series, but not a
percentile of its distribution). -/
theorem claim_C9 (c o : List ℕ) (hc : c ≠ []) (ho : o ≠ []) :
    (PerformanceMetrics.GetStats ⟨c, o⟩).avgCaptureToOrder = c.sum / c.length ∧
      (PerformanceMetrics.GetStats ⟨c, o⟩).avgOrderExecution = o.sum / o.length ∧
      (c.length ≤ 100 → (PerformanceMetrics.GetStats ⟨c, o⟩).p99CaptureToOrder = 0) ∧
      (100 < c.length →
        (PerformanceMetrics.GetStats ⟨c, o⟩).p99CaptureToOrder =
            c.getD (c.length * 99 / 100) 0 ∧
          (PerformanceMetrics.GetStats ⟨c, o⟩).p99CaptureToOrder ∈ c) ∧
      (o.length ≤ 100 → (PerformanceMetrics.GetStats ⟨c, o⟩).p99OrderExecution = 0) ∧
      (100 < o.length →
        (PerformanceMetrics.GetStats ⟨c, o⟩).p99OrderExecution =
            o.getD (o.length * 99 / 100) 0 ∧
          (PerformanceMetrics.GetStats ⟨c, o⟩).p99OrderExecution ∈ o) := by
  refine ⟨?_, ?_, ?_, ?_, ?_, ?_⟩
  · show goMean c = c.sum / c.length
    unfold goMean
    rw [if_pos (by simpa using List.length_pos.mpr hc)]
  · show goMean o = o.sum / o.length
    unfold goMean
    rw [if_pos (by simpa using List.length_pos.mpr ho)]
  · intro h
    show goP99 c = 0
    unfold goP99
    rw [if_neg (by omega)]
  · intro h
    exact goP99_long c h
  · intro h
    show goP99 o = 0
    unfold goP99
    rw [if_neg (by omega)]
  · intro h
    exact goP99_long o h

/-- Witness for C9 at the concrete non-empty series `[5]` and `[7]`. -/
theorem claim_C9_witness :
    (PerformanceMetrics.GetStats ⟨[5], [7]⟩).avgCaptureToOrder =
      List.sum [5] / List.length [5] :=
  (claim_C9 [5] [7] (by decide) (by decide)).1

/-- A freshly set bid is what the table lookup returns. -/
theorem lookupBid_setBid_self (tbl : BidTable) (j : String) (b : ActiveBid) :
    lookupBid (setBid tbl j b) j = some b := by
  simp [setBid, lookupBid]

/-- Erasing a key leaves lookups of other keys unchanged. -/
theorem lookupBid_eraseBid_ne (tbl : BidTable) (j' j : String) (h : j' ≠ j) :
    lookupBid (eraseBid tbl j') j = lookupBid tbl j := by
  induction tbl with
  | nil => rfl
  | cons e rest ih =>
      obtain ⟨k, v⟩ := e
      simp only [eraseBid, ne_eq, decide_not] at ih
      by_cases hk : k = j'
      · subst hk
        simp [eraseBid, List.filter_cons, lookupBid, ne_eq, decide_not, h, ih]
      · simp [eraseBid, List.filter_cons, lookupBid, ne_eq, decide_not, hk, ih]

/-- Erasing a key removes it from lookups. -/
theorem lookupBid_eraseBid_self (tbl : BidTable) (j : String) :
    lookupBid (eraseBid tbl j) j = none := by
  induction tbl with
  | nil => rfl
  | cons e rest ih =>
      obtain ⟨k, v⟩ := e
      simp only [eraseBid, ne_eq, decide_not] at ih
      by_cases hk : k = j
      · subst hk
        simp [eraseBid, List.filter_cons, lookupBid, ne_eq, decide_not, ih]
      · simp [eraseBid, List.filter_cons, lookupBid, ne_eq, decide_not, hk, ih]

/-- Setting one outcome's bid leaves the other outcomes' lookups
unchanged. -/
theorem lookupBid_setBid_ne (tbl : BidTable) (j' j : String) (b : ActiveBid)
    (h : j' ≠ j) : lookupBid (setBid tbl j' b) j = lookupBid tbl j := by
  simp only [setBid, lookupBid, h, if_false]
  exact lookupBid_eraseBid_ne tbl j' j h

/-- `updateBid` touches only its own outcome's table entry. -/
theorem updateBid_lookup_ne (tick : ℚ) (td : ℕ) (createOk : ℚ → Bool)
    (postRes : ℚ → Option String) (tbl : BidTable) (j' j : String) (p : ℚ)
    (h : j' ≠ j) :
    lookupBid (updateBid tick td createOk postRes tbl j' p).1 j =
      lookupBid tbl j := by
  unfold updateBid
  cases hc : lookupBid tbl j' with
  | none =>
      cases hg : PriceValid p tick td && createOk p with
      | false => simp only [hg, Bool.false_eq_true, if_false]
      | true =>
          simp only [hg, if_true]
          cases hp : postRes p with
          | none => rfl
          | some oid => exact lookupBid_setBid_ne tbl j' j _ h
  | some cur =>
      by_cases hpr : cur.price = p
      · simp only [hpr, if_true]
      · simp only [hpr, if_false]
        cases hg : PriceValid p tick td && createOk p with
        | false => simp only [hg, Bool.false_eq_true, if_false]
        | true =>
            simp only [hg, if_true]
            cases hp : postRes p with
            | none => rfl
            | some oid => exact lookupBid_setBid_ne tbl j' j _ h

/-- `cancelBid` touches only its own outcome's table entry. -/
theorem cancelBid_lookup_ne (tbl : BidTable) (j' j : String) (h : j' ≠ j) :
    lookupBid (cancelBid tbl j').1 j = lookupBid tbl j := by
  unfold cancelBid
  cases hc : lookupBid tbl j' with
  | none => rfl
  | some b => exact lookupBid_eraseBid_ne tbl j' j h

/-- When the desired price passes validation, the client network call
succeeds and the post response carries an order ID, `updateBid` leaves a
resting bid at exactly the requested price (either the new order or an
already-resting bid at that price). -/
theorem updateBid_lookup_self (tick : ℚ) (td : ℕ) (createOk : ℚ → Bool)
    (postRes : ℚ → Option String) (tbl : BidTable) (j : String) (p : ℚ)
    (oid : String) (hpv : PriceValid p tick td = true)
    (hco : createOk p = true) (hpost : postRes p = some oid) :
    ∃ b, lookupBid (updateBid tick td createOk postRes tbl j p).1 j = some b ∧
      b.price = p := by
  have hg : (PriceValid p tick td && createOk p) = true := by
    rw [hpv, hco]
    rfl
  unfold updateBid
  cases hc : lookupBid tbl j with
  | none =>
      simp only [hg, if_true, hpost]
      exact ⟨⟨oid, p, 100⟩, lookupBid_setBid_self tbl j _, rfl⟩
  | some cur =>
      by_cases hpr : cur.price = p
      · simp only [hpr, if_true]
        exact ⟨cur, hc, hpr⟩
      · simp only [hpr, if_false, hg, if_true, hpost]
        exact ⟨⟨oid, p, 100⟩, lookupBid_setBid_self tbl j _, rfl⟩

/-- `cancelBid` leaves no table entry for its outcome. -/
theorem cancelBid_lookup_self (tbl : BidTable) (j : String) :
    lookupBid (cancelBid tbl j).1 j = none := by
  unfold cancelBid
  cases hc : lookupBid tbl j with
  | none => exact hc
  | some b => exact lookupBid_eraseBid_self tbl j

/-- Repricing one outcome leaves the other outcomes' table entries
unchanged. -/
theorem repriceOutcome_lookup_ne (tick : ℚ) (td : ℕ) (createOk : ℚ → Bool)
    (postRes : ℚ → Option String) (askl : List (String × ℚ))
    (outcomes : List String) (extraEdge : ℚ) (acc : BidTable × List OrderCmd)
    (j' j : String) (h : j' ≠ j) :
    lookupBid (repriceOutcome tick td createOk postRes askl outcomes extraEdge
        acc j').1 j = lookupBid acc.1 j := by
  simp only [repriceOutcome]
  split_ifs
  · exact updateBid_lookup_ne tick td createOk postRes acc.1 j' j _ h
  · exact cancelBid_lookup_ne acc.1 j' j h

/-- Repricing a run of outcomes not containing `j` leaves `j`'s table
entry unchanged. -/
theorem foldReprice_lookup_notmem (tick : ℚ) (td : ℕ) (createOk : ℚ → Bool)
    (postRes : ℚ → Option String) (askl : List (String × ℚ))
    (outcomes : List String) (extraEdge : ℚ) (ts : List String)
    (acc : BidTable × List OrderCmd) (j : String) (h : ¬ j ∈ ts) :
    lookupBid
        (ts.foldl (repriceOutcome tick td createOk postRes askl outcomes extraEdge)
          acc).1 j = lookupBid acc.1 j := by
  induction ts generalizing acc with
  | nil => rfl
  | cons t ts ih =>
      have hne : t ≠ j := fun he => h (he ▸ List.mem_cons_self t ts)
      rw [List.foldl_cons,
        ih _ (fun hm => h (List.mem_cons_of_mem t hm))]
      exact repriceOutcome_lookup_ne tick td createOk postRes askl outcomes
        extraEdge acc t j hne

/-- The `sumOtherAsks` loop computes the sum of the asks of the outcomes
other than `j`. -/
theorem sumOtherAsks_eq (askl : List (String × ℚ)) (outcomes : List String)
    (j : String) :
    sumOtherAsks askl outcomes j =
      ((outcomes.filter (fun k => k ≠ j)).map (lookupAsk askl)).sum := by
  suffices hgen : ∀ (l : List String) (s : ℚ),
      l.foldl (fun s k => if k ≠ j then s + lookupAsk askl k else s) s =
        s + ((l.filter (fun k => k ≠ j)).map (lookupAsk askl)).sum by
    have h := hgen outcomes 0
    simpa [sumOtherAsks] using h
  intro l
  induction l with
  | nil => simp
  | cons t ts ih =>
      intro s
      simp only [ne_eq, decide_not, ite_not] at ih
      by_cases ht : t = j
      · subst ht
        simp [List.filter_cons, ih]
      · simp [List.filter_cons, ht, ih]
        ring

/-- Every outcome of a fresh snapshot carries its cached best ask. -/
theorem snapshotAsks_sound (cache : MarketCache) (outcomes : List String)
    (askl : List (String × ℚ))
    (hsnap : snapshotAsks cache outcomes = some askl) :
    ∀ i ∈ outcomes, ∃ md, cache.Get i = some md ∧ md.bestAsk ≠ 0 ∧
      lookupAsk askl i = md.bestAsk := by
  induction outcomes generalizing askl with
  | nil => intro i hi; cases hi
  | cons t ts ih =>
      intro i hi
      unfold snapshotAsks at hsnap
      rcases hg : cache.Get t with _ | md
      · simp only [hg] at hsnap
        exact Option.noConfusion hsnap
      · simp only [hg] at hsnap
        by_cases hz : md.bestAsk = 0
        · rw [if_pos hz] at hsnap
          exact Option.noConfusion hsnap
        · rw [if_neg hz] at hsnap
          rcases Option.map_eq_some'.mp hsnap with ⟨rest, hrest, hcons⟩
          subst hcons
          by_cases hti : t = i
          · subst hti
            exact ⟨md, hg, hz, by simp [lookupAsk]⟩
          · have hits : i ∈ ts := by
              rcases List.mem_cons.mp hi with he | hm
              · exact absurd he.symm hti
              · exact hm
            rcases ih rest hrest i hits with ⟨md', hmd', hz', hla⟩
            exact ⟨md', hmd', hz', by simp [lookupAsk, hti, hla]⟩

/-- C6 (amended): per maker-taker tick with a fresh quote for every
outcome, the desired bid of outcome `j` equals
`(n − 1 − extraEdge) − Σ (ask_i, i ≠ j)` over the snapshot of cached
best asks; when it exceeds the `0.01` minimum-tick threshold the bot
cancels any differently-priced resting bid and reposts, so that —
provided the price passes the client's `PriceValid` validation and the
exchange accepts the order — a resting bid at exactly that price
results; when it does not exceed the threshold, no resting bid for `j`
survives the tick.  (The unconditional "a resting bid is ensured"
reading of the claim fails: see the counterexample.) -/
theorem claim_C6 (tick : ℚ) (td : ℕ) (createOk : ℚ → Bool)
    (postRes : ℚ → Option String) (cache : MarketCache)
    (outcomes : List String) (extraEdge : ℚ) (tbl : BidTable)
    (askl : List (String × ℚ)) (j : String) (hnd : outcomes.Nodup)
    (hj : j ∈ outcomes) (hsnap : snapshotAsks cache outcomes = some askl) :
    (desiredBid askl outcomes extraEdge j =
        ((outcomes.length : ℚ) - 1 - extraEdge) -
          ((outcomes.filter (fun k => k ≠ j)).map (lookupAsk askl)).sum) ∧
      (∀ i ∈ outcomes, ∃ md, cache.Get i = some md ∧
        lookupAsk askl i = md.bestAsk) ∧
      (∀ oid, desiredBid askl outcomes extraEdge j > 1 / 100 →
        PriceValid (desiredBid askl outcomes extraEdge j) tick td = true →
        createOk (desiredBid askl outcomes extraEdge j) = true →
        postRes (desiredBid askl outcomes extraEdge j) = some oid →
        ∃ b, lookupBid
            (makerTakerTick tick td createOk postRes cache outcomes extraEdge
              tbl).1 j = some b ∧
          b.price = desiredBid askl outcomes extraEdge j) ∧
      (desiredBid askl outcomes extraEdge j ≤ 1 / 100 →
        lookupBid
          (makerTakerTick tick td createOk postRes cache outcomes extraEdge
            tbl).1 j = none) := by
  obtain ⟨l1, l2, rfl⟩ := List.append_of_mem hj
  have hnotl2 : ¬ j ∈ l2 := by
    have h2 := (List.nodup_append.mp hnd).2.1
    exact (List.nodup_cons.mp h2).1
  have hfold :
      makerTakerTick tick td createOk postRes cache (l1 ++ j :: l2) extraEdge tbl =
        (l1 ++ j :: l2).foldl
          (repriceOutcome tick td createOk postRes askl (l1 ++ j :: l2) extraEdge)
          (tbl, []) := by
    unfold makerTakerTick
    rw [hsnap]
  have hsplit :
      (l1 ++ j :: l2).foldl
          (repriceOutcome tick td createOk postRes askl (l1 ++ j :: l2) extraEdge)
          (tbl, []) =
        l2.foldl
          (repriceOutcome tick td createOk postRes askl (l1 ++ j :: l2) extraEdge)
          (repriceOutcome tick td createOk postRes askl (l1 ++ j :: l2) extraEdge
            (l1.foldl
              (repriceOutcome tick td createOk postRes askl (l1 ++ j :: l2)
                extraEdge)
              (tbl, []))
            j) := by
    rw [List.foldl_append, List.foldl_cons]
  refine ⟨?_, ?_, ?_, ?_⟩
  · unfold desiredBid
    rw [sumOtherAsks_eq]
  · intro i hi
    rcases snapshotAsks_sound cache (l1 ++ j :: l2) askl hsnap i hi with
      ⟨md, hmd, _, hla⟩
    exact ⟨md, hmd, hla⟩
  · intro oid hgt hpv hco hpost
    rw [hfold, hsplit,
      foldReprice_lookup_notmem tick td createOk postRes askl _ extraEdge l2 _ j
        hnotl2]
    simp only [repriceOutcome]
    rw [if_pos hgt]
    exact updateBid_lookup_self tick td createOk postRes _ j _ oid hpv hco hpost
  · intro hle
    rw [hfold, hsplit,
      foldReprice_lookup_notmem tick td createOk postRes askl _ extraEdge l2 _ j
        hnotl2]
    simp only [repriceOutcome]
    rw [if_neg (not_lt.mpr hle)]
    exact cancelBid_lookup_self _ j

/-- Counterexample for C6 as stated: at the spec's own maker-taker
example (3 outcomes, asks 0.30/0.31/0.32, `extraEdge = 0.01`) the
desired bid of outcome 1 is 1.36, which exceeds the minimum tick size —
yet no resting bid results, even with an exchange oracle that accepts
every order, because `client.CreateOrder` rejects the out-of-range price
before posting. -/
theorem claim_C6_counterexample :
    desiredBid [("a", 3/10), ("b", 31/100), ("c", 32/100)] ["a", "b", "c"]
        (1/100) "a" = 136/100 ∧
      (136 : ℚ)/100 > 1/100 ∧
      lookupBid
        (makerTakerTick (1/100) 2 (fun _ => true) (fun _ => some "x") exCacheMT
          ["a", "b", "c"] (1/100) []).1 "a" = none := by
  refine ⟨?_, by norm_num, ?_⟩
  · norm_num +decide [desiredBid, sumOtherAsks, lookupAsk]
  · norm_num +decide [makerTakerTick, snapshotAsks, exCacheMT, MarketCache.Get,
      repriceOutcome, desiredBid, sumOtherAsks, lookupAsk, updateBid, cancelBid,
      lookupBid, PriceValid]

/-- Witness for C6: same group with `extraEdge = 1.30`, giving outcome
"a" the desired bid 0.07 — on the tick grid and in range — and a
successful exchange round-trip: a resting bid at exactly 0.07 results. -/
theorem claim_C6_witness :
    ∃ b, lookupBid
        (makerTakerTick (1/100) 2 (fun _ => true) (fun _ => some "o1") exCacheMT
          ["a", "b", "c"] (13/10) []).1 "a" = some b ∧
      b.price = desiredBid [("a", 3/10), ("b", 31/100), ("c", 32/100)]
        ["a", "b", "c"] (13/10) "a" :=
  ((claim_C6 (1/100) 2 (fun _ => true) (fun _ => some "o1") exCacheMT
      ["a", "b", "c"] (13/10) [] [("a", 3/10), ("b", 31/100), ("c", 32/100)] "a"
      (by decide) (by decide)
      (by norm_num +decide [snapshotAsks, exCacheMT, MarketCache.Get])).2.2.1)
    "o1"
    (by norm_num +decide [desiredBid, sumOtherAsks, lookupAsk])
    (by norm_num +decide [desiredBid, sumOtherAsks, lookupAsk, PriceValid])
    rfl rfl

/-- A price accepted by `PriceValid` lies within `[tick, 1 − tick]`. -/
theorem PriceValid_range (price tick : ℚ) (td : ℕ)
    (h : PriceValid price tick td = true) : tick ≤ price ∧ price ≤ 1 - tick := by
  unfold PriceValid at h
  by_cases h1 : price < tick ∨ price > 1 - tick
  · rw [if_pos h1] at h
    exact absurd h (by simp)
  · push_neg at h1
    exact h1

/-- An entry of the table after a `setBid` is the new bid or an old
entry. -/
theorem mem_setBid (tbl : BidTable) (j : String) (b : ActiveBid)
    (e : String × ActiveBid) (he : e ∈ setBid tbl j b) :
    e = (j, b) ∨ e ∈ tbl := by
  rcases List.mem_cons.mp he with h | h
  · exact Or.inl h
  · exact Or.inr (List.mem_of_mem_filter h)

/-- `updateBid` keeps every table price in `[0, 1]` and posts only
validated prices (given a nonnegative tick). -/
theorem updateBid_inv (tick : ℚ) (td : ℕ) (createOk : ℚ → Bool)
    (postRes : ℚ → Option String) (tbl : BidTable) (j : String) (p : ℚ)
    (htick : 0 ≤ tick)
    (hinv : ∀ e ∈ tbl, 0 ≤ (Prod.snd e).price ∧ (Prod.snd e).price ≤ 1) :
    (∀ e ∈ (updateBid tick td createOk postRes tbl j p).1,
        0 ≤ (Prod.snd e).price ∧ (Prod.snd e).price ≤ 1) ∧
      ∀ q, OrderCmd.place q ∈ (updateBid tick td createOk postRes tbl j p).2 →
        0 ≤ q ∧ q ≤ 1 := by
  have hval : (PriceValid p tick td && createOk p) = true → 0 ≤ p ∧ p ≤ 1 := by
    intro hg
    rw [Bool.and_eq_true] at hg
    obtain ⟨h1, h2⟩ := PriceValid_range p tick td hg.1
    exact ⟨le_trans htick h1, by linarith⟩
  have hsetInv : ∀ oid, (PriceValid p tick td && createOk p) = true →
      ∀ e ∈ setBid tbl j ⟨oid, p, 100⟩,
        0 ≤ (Prod.snd e).price ∧ (Prod.snd e).price ≤ 1 := by
    intro oid hg e he
    rcases mem_setBid tbl j _ e he with h | h
    · rw [h]
      exact hval hg
    · exact hinv e h
  unfold updateBid
  cases hc : lookupBid tbl j with
  | none =>
      cases hg : PriceValid p tick td && createOk p with
      | false =>
          simp only [hg, Bool.false_eq_true, if_false]
          exact ⟨hinv, by simp⟩
      | true =>
          simp only [hg, if_true]
          cases hp : postRes p with
          | none =>
              refine ⟨hinv, ?_⟩
              intro q hq
              simp at hq
              rw [hq]
              exact hval hg
          | some oid =>
              refine ⟨hsetInv oid hg, ?_⟩
              intro q hq
              simp at hq
              rw [hq]
              exact hval hg
  | some cur =>
      by_cases hpr : cur.price = p
      · simp only [if_pos hpr]
        exact ⟨hinv, by simp⟩
      · simp only [if_neg hpr]
        cases hg : PriceValid p tick td && createOk p with
        | false =>
            simp only [Bool.false_eq_true, if_false]
            refine ⟨hinv, ?_⟩
            intro q hq
            simp at hq
        | true =>
            simp only [if_true]
            cases hp : postRes p with
            | none =>
                refine ⟨hinv, ?_⟩
                intro q hq
                simp at hq
                rw [hq]
                exact hval hg
            | some oid =>
                refine ⟨hsetInv oid hg, ?_⟩
                intro q hq
                simp at hq
                rw [hq]
                exact hval hg

/-- `cancelBid` keeps every table price in `[0, 1]` and posts nothing. -/
theorem cancelBid_inv (tbl : BidTable) (j : String)
    (hinv : ∀ e ∈ tbl, 0 ≤ (Prod.snd e).price ∧ (Prod.snd e).price ≤ 1) :
    (∀ e ∈ (cancelBid tbl j).1,
        0 ≤ (Prod.snd e).price ∧ (Prod.snd e).price ≤ 1) ∧
      ∀ q, OrderCmd.place q ∈ (cancelBid tbl j).2 → 0 ≤ q ∧ q ≤ 1 := by
  unfold cancelBid
  cases hc : lookupBid tbl j with
  | none => exact ⟨hinv, by simp⟩
  | some b =>
      refine ⟨?_, ?_⟩
      · intro e he
        exact hinv e (List.mem_of_mem_filter he)
      · intro q hq
        simp at hq

/-- A repricing step preserves the price invariant of the table and of
the issued commands. -/
theorem repriceOutcome_inv (tick : ℚ) (td : ℕ) (createOk : ℚ → Bool)
    (postRes : ℚ → Option String) (askl : List (String × ℚ))
    (outcomes : List String) (extraEdge : ℚ) (acc : BidTable × List OrderCmd)
    (t : String) (htick : 0 ≤ tick)
    (hacc1 : ∀ e ∈ acc.1, 0 ≤ (Prod.snd e).price ∧ (Prod.snd e).price ≤ 1)
    (hacc2 : ∀ q, OrderCmd.place q ∈ acc.2 → 0 ≤ q ∧ q ≤ 1) :
    (∀ e ∈ (repriceOutcome tick td createOk postRes askl outcomes extraEdge
        acc t).1, 0 ≤ (Prod.snd e).price ∧ (Prod.snd e).price ≤ 1) ∧
      ∀ q, OrderCmd.place q ∈ (repriceOutcome tick td createOk postRes askl
        outcomes extraEdge acc t).2 → 0 ≤ q ∧ q ≤ 1 := by
  simp only [repriceOutcome]
  split_ifs with hdb
  · obtain ⟨h1, h2⟩ :=
      updateBid_inv tick td createOk postRes acc.1 t _ htick hacc1
    refine ⟨h1, ?_⟩
    intro q hq
    rcases List.mem_append.mp hq with h | h
    · exact hacc2 q h
    · exact h2 q h
  · obtain ⟨h1, h2⟩ := cancelBid_inv acc.1 t hacc1
    refine ⟨h1, ?_⟩
    intro q hq
    rcases List.mem_append.mp hq with h | h
    · exact hacc2 q h
    · exact h2 q h

/-- The whole repricing pass preserves the price invariant. -/
theorem foldReprice_inv (tick : ℚ) (td : ℕ) (createOk : ℚ → Bool)
    (postRes : ℚ → Option String) (askl : List (String × ℚ))
    (outcomes : List String) (extraEdge : ℚ) (ts : List String)
    (acc : BidTable × List OrderCmd) (htick : 0 ≤ tick)
    (hacc1 : ∀ e ∈ acc.1, 0 ≤ (Prod.snd e).price ∧ (Prod.snd e).price ≤ 1)
    (hacc2 : ∀ q, OrderCmd.place q ∈ acc.2 → 0 ≤ q ∧ q ≤ 1) :
    (∀ e ∈ (ts.foldl (repriceOutcome tick td createOk postRes askl outcomes
        extraEdge) acc).1, 0 ≤ (Prod.snd e).price ∧ (Prod.snd e).price ≤ 1) ∧
      ∀ q, OrderCmd.place q ∈ (ts.foldl (repriceOutcome tick td createOk
        postRes askl outcomes extraEdge) acc).2 → 0 ≤ q ∧ q ≤ 1 := by
  induction ts generalizing acc with
  | nil => exact ⟨hacc1, hacc2⟩
  | cons t ts ih =>
      rw [List.foldl_cons]
      obtain ⟨h1, h2⟩ := repriceOutcome_inv tick td createOk postRes askl
        outcomes extraEdge acc t htick hacc1 hacc2
      exact ih _ h1 h2

/-- C7: the maker-taker repricing never leaves a resting bid, nor posts
an order, at a price above 1 or below 0: the `desiredBid > 0.01` guard
rules out nonpositive prices and `client.CreateOrder`'s `PriceValid`
check rejects prices outside `[tick, 1 − tick]` before `PostOrder` is
reached.  Stated as an invariant: if every resting bid is in `[0, 1]`
before a tick, then after the tick every resting bid and every posted
price is in `[0, 1]`. -/
theorem claim_C7 (tick : ℚ) (td : ℕ) (createOk : ℚ → Bool)
    (postRes : ℚ → Option String) (cache : MarketCache)
    (outcomes : List String) (extraEdge : ℚ) (tbl : BidTable)
    (htick : 0 ≤ tick)
    (hinv : ∀ e ∈ tbl, 0 ≤ (Prod.snd e).price ∧ (Prod.snd e).price ≤ 1) :
    (∀ e ∈ (makerTakerTick tick td createOk postRes cache outcomes extraEdge
        tbl).1, 0 ≤ (Prod.snd e).price ∧ (Prod.snd e).price ≤ 1) ∧
      ∀ q, OrderCmd.place q ∈ (makerTakerTick tick td createOk postRes cache
        outcomes extraEdge tbl).2 → 0 ≤ q ∧ q ≤ 1 := by
  unfold makerTakerTick
  cases hs : snapshotAsks cache outcomes with
  | none => exact ⟨hinv, by simp⟩
  | some askl =>
      exact foldReprice_inv tick td createOk postRes askl outcomes extraEdge
        outcomes (tbl, []) htick hinv (by simp)

/-- Witness for C7 at the concrete maker-taker scenario: tick 0.01 and
an initially empty table. -/
theorem claim_C7_witness :
    (∀ e ∈ (makerTakerTick (1/100) 2 (fun _ => true) (fun _ => some "o1")
        exCacheMT ["a", "b", "c"] (13/10) []).1,
      0 ≤ (Prod.snd e).price ∧ (Prod.snd e).price ≤ 1) ∧
      ∀ q, OrderCmd.place q ∈ (makerTakerTick (1/100) 2 (fun _ => true)
        (fun _ => some "o1") exCacheMT ["a", "b", "c"] (13/10) []).2 →
        0 ≤ q ∧ q ≤ 1 :=
  claim_C7 (1/100) 2 (fun _ => true) (fun _ => some "o1") exCacheMT
    ["a", "b", "c"] (13/10) [] (by norm_num) (by simp)

/-- Witness for C4: a concrete execution with one failed leg clears the
flag that was set for the group. -/
theorem claim_C4_witness :
    ¬ "m" ∈ (collectResults "m" 1 [true, false] ⟨["m"], 0, 0⟩).active :=
  (claim_C4 "m" 1 [true, false] ⟨["m"], 0, 0⟩).1
